import Mathlib

/-!
Verification of the import-extraction, dependency-resolution and
manifest-generation logic of `dockerizer.py`.

The source scans a script with the regular expression
`^\s*(?:import|from)\s+([a-zA-Z0-9_]+)` in MULTILINE mode (function
`parse_imports`), filters standard-library names and rewrites known
alias names (`map_to_pip_packages`), and writes a Dockerfile and a
sorted `requirements.txt` (`create_dockerfile`,
`create_requirements_txt`).  Texts are modelled as `List Char`; the
regex search is modelled character-exactly for the ASCII range:
`\s` is the ASCII whitespace class, `^` matches at position 0 and
after each newline, and `re.finditer` yields leftmost,
non-overlapping matches.
-/

/-- ASCII part of the Python regex class `\s`. -/
def isWsChar (c : Char) : Bool :=
  c = ' ' || c = '\t' || c = '\n' || c = '\r' || c = '\x0b' || c = '\x0c'

/-- The regex character class `[a-zA-Z0-9_]`. -/
def isIdChar (c : Char) : Bool :=
  ('a' ≤ c && c ≤ 'z') || ('A' ≤ c && c ≤ 'Z') || ('0' ≤ c && c ≤ '9') || c = '_'

/-- Length of the maximal whitespace prefix (the greedy `\s*` / `\s+`). -/
def wsRun : List Char → Nat
  | [] => 0
  | c :: t => if isWsChar c then wsRun t + 1 else 0

/-- Length of the maximal identifier-character prefix (the greedy `[a-zA-Z0-9_]+`). -/
def idRun : List Char → Nat
  | [] => 0
  | c :: t => if isIdChar c then idRun t + 1 else 0

/-- `startsWithSeq p u` holds when `p` is a prefix of `u` (a literal regex token). -/
def startsWithSeq : List Char → List Char → Bool
  | [], _ => true
  | _ :: _, [] => false
  | p :: ps, c :: t => if p = c then startsWithSeq ps t else false

/-- The literal keyword `import` of the regex alternation. -/
def kwImport : List Char := "import".toList

/-- The literal keyword `from` of the regex alternation. -/
def kwFrom : List Char := "from".toList

/-- The regex alternation `(?:import|from)`: the matched keyword length, if any.
The two literals start with distinct characters, so the alternation order is
immaterial. -/
def kwAt (u : List Char) : Option Nat :=
  if startsWithSeq kwImport u then some 6
  else if startsWithSeq kwFrom u then some 4
  else none

/-- One attempt of `^\s*(?:import|from)\s+([a-zA-Z0-9_]+)` at the start of `u`
(which the scanner only calls at `^` positions).  Returns the captured group
and the number of characters consumed by the whole match.  Greediness is
forced: `\s` and the keyword/identifier characters are disjoint, so the
backtracking of the Python engine never changes the outcome. -/
def matchAt (u : List Char) : Option (List Char × Nat) :=
  let a := wsRun u
  let u1 := u.drop a
  match kwAt u1 with
  | none => none
  | some k =>
    let u2 := u1.drop k
    let b := wsRun u2
    if b = 0 then none
    else
      let u3 := u2.drop b
      let d := idRun u3
      if d = 0 then none
      else some (u3.take d, a + k + b + d)

/-- Drop characters up to and including the next newline: advance to the next
`^` position of the MULTILINE search. -/
def dropLine : List Char → List Char
  | [] => []
  | c :: t => if c = '\n' then t else dropLine t

/-- The `re.finditer` loop: at each `^` position try the pattern; on success
record the captured group and resume after the match (the next `^` position
is past the next newline, since a match ends in an identifier character);
on failure move to the next line.  Fuel-based so that the kernel can
evaluate it; `u.length` fuel always suffices. -/
def scanAux : Nat → List Char → List (List Char)
  | 0, _ => []
  | f + 1, u =>
    (matchAt u).elim (scanAux f (dropLine u))
      (fun p => p.1 :: scanAux f (dropLine (u.drop p.2)))

/-- All groups captured by `re.finditer(import_pattern, content, re.MULTILINE)`,
in text order. -/
def scanCaptures (cs : List Char) : List (List Char) :=
  scanAux cs.length cs

/-- `parse_imports` of the source, on already-read file content: the set of
captured names.  The Python `set` is modelled as a duplicate-free list;
its iteration order is unspecified in the source, so theorems below that
consume it quantify over permutations where order could matter. -/
def parse_imports (content : String) : List String :=
  ((scanCaptures content.toList).map (fun l => String.mk l)).dedup

/-- The alias table `package_mapping` of the source. -/
def package_mapping : List (String × String) :=
  [("cv2", "opencv-python"),
   ("PIL", "Pillow"),
   ("sklearn", "scikit-learn"),
   ("yaml", "pyyaml"),
   ("dotenv", "python-dotenv"),
   ("bs4", "beautifulsoup4"),
   ("dateutil", "python-dateutil")]

/-- The `stdlib` set of the source. -/
def stdlib : List String :=
  ["os", "sys", "re", "json", "time", "datetime", "math", "random",
   "collections", "itertools", "functools", "pathlib", "subprocess",
   "threading", "multiprocessing", "logging", "argparse", "io",
   "shutil", "tempfile", "glob", "pickle", "csv", "urllib", "http",
   "socket", "email", "html", "xml", "sqlite3", "hashlib", "hmac",
   "base64", "binascii", "struct", "array", "enum", "typing", "copy",
   "weakref", "contextlib", "abc", "asyncio", "concurrent", "queue",
   "secrets", "string", "textwrap", "unicodedata", "codecs", "encodings",
   "decimal", "fractions", "statistics", "heapq", "bisect", "pprint",
   "reprlib", "dataclasses", "graphlib", "warnings", "traceback", "inspect",
   "importlib", "pkgutil", "modulefinder", "runpy", "site", "builtins"]

/-- `package_mapping.get(imp, imp)` of the source. -/
def resolvePip (imp : String) : String :=
  (package_mapping.lookup imp).getD imp

/-- The loop of `map_to_pip_packages`: skip stdlib names, append the alias
translation (or the name itself) for the rest, preserving iteration order. -/
def map_to_pip_packages : List String → List String
  | [] => []
  | imp :: rest =>
    if stdlib.contains imp then map_to_pip_packages rest
    else resolvePip imp :: map_to_pip_packages rest

/-- Head-of-list whitespace test, `false` on the empty list. -/
def headWs : List Char → Bool
  | [] => false
  | c :: _ => isWsChar c

/-- Head-of-list identifier-character test, `false` on the empty list. -/
def headId : List Char → Bool
  | [] => false
  | c :: _ => isIdChar c

/-- `u` is the tail of `cs` starting at a MULTILINE `^` position: either all
of `cs`, or the part following some newline. -/
def LineStartSuffix (cs u : List Char) : Prop :=
  u = cs ∨ ∃ v, cs = v ++ '\n' :: u

/-- The shape of the text around a captured name `n` inside the line-start
suffix `u`: optional whitespace, the keyword, mandatory whitespace, then `n`,
a maximal nonempty identifier run. -/
def CaptureShape (u n : List Char) : Prop :=
  ∃ w kw w1 rest,
    (kw = kwImport ∨ kw = kwFrom) ∧
    u = w ++ kw ++ w1 ++ n ++ rest ∧
    (∀ c ∈ w, isWsChar c = true) ∧
    (∀ c ∈ w1, isWsChar c = true) ∧ w1 ≠ [] ∧
    n ≠ [] ∧ (∀ c ∈ n, isIdChar c = true) ∧
    (∀ c, rest.head? = some c → isIdChar c = false)

/-- Lexicographic comparison of character sequences by code point, the
order used by Python `sorted` on strings. -/
def lexLe : List Char → List Char → Bool
  | [], _ => true
  | _ :: _, [] => false
  | a :: as, b :: bs =>
    if a.toNat = b.toNat then lexLe as bs
    else decide (a.toNat < b.toNat)

/-- The order Python `sorted` applies to the package names. -/
def strLe (a b : String) : Prop :=
  lexLe a.toList b.toList = true

instance : DecidableRel strLe :=
  fun a b => inferInstanceAs (Decidable (lexLe a.toList b.toList = true))

/-- Python `sorted(pip_packages)`. -/
def sortedStr (l : List String) : List String :=
  List.insertionSort strLe l

/-! ### File generation (`create_dockerfile`, `create_requirements_txt`) -/

/-- The fixed part of the Dockerfile template before the dependency step. -/
def dfHead (script_name : String) : String :=
  "# auto-generated dockerfile for " ++ script_name ++
  "\nFROM python:3.11-slim-bookworm\n\n# Set working directory\nWORKDIR /app\n\n" ++
  "# Install system dependencies\nRUN apt-get update && apt-get install -y \\\n" ++
  "    gcc \\\n    && rm -rf /var/lib/apt/lists/*\n\n# Copy Python script\nCOPY " ++
  script_name ++ " /app/\n\n# Install Python dependencies\n\n"

/-- The fixed part of the Dockerfile template after the dependency step. -/
def dfTail (script_name : String) : String :=
  "\n# Run the script\nCMD [\"python3\", \"" ++ script_name ++ "\"]\n"

/-- The Dockerfile text built by `create_dockerfile`. -/
def create_dockerfile_content (script_name : String) (pip_packages : List String) : String :=
  dfHead script_name ++
  (if pip_packages.isEmpty then "# No external dependencies detected\n"
   else "RUN pip install --no-cache-dir " ++ String.intercalate " " pip_packages ++ "\n") ++
  dfTail script_name

/-- The `requirements.txt` text written by `create_requirements_txt`, or
`none` when the function returns early without creating the file. -/
def create_requirements_content (pip_packages : List String) : Option String :=
  if pip_packages.isEmpty then none
  else some (String.join ((sortedStr pip_packages).map (fun p => p ++ "\n")))

/-! ### Error handling and process exit -/

/-- `parse_imports` including its read step: the `try` body on a successful
read, the `except` handler on a failed one.  The second component is the
list of warning lines printed. -/
def parse_imports_from_read (python_file : String) (readResult : Except String String) :
    List String × List String :=
  match readResult with
  | Except.ok content => (parse_imports content, [])
  | Except.error e =>
    ([], ["Warning: Could not parse imports from " ++ python_file ++ ": " ++ e])

/-- `python_file.endswith` of the source. -/
def strEndsWith (s suf : List Char) : Bool :=
  startsWithSeq suf.reverse s.reverse

/-- The process exit code of `main`, as a function of the outcomes of its
effectful steps: `sys.exit(1)` when the input is not a file, when its name
does not end in `.py`, or when `build_docker_image` returns false; the
result of `run_docker_container` (attempted only without `--no-run`) is
discarded, and falling off the end of `main` exits 0. -/
def mainExitCode (fileIsFile : Bool) (python_file : String)
    (buildOk _noRun _runOk : Bool) : Nat :=
  if fileIsFile = false then 1
  else if strEndsWith python_file.toList ".py".toList = false then 1
  else if buildOk = false then 1
  else 0

/-! ### A notion of string-literal position, for the spec's string clause -/

/-- Modelled from the spec: the spec's "identifiers appearing only inside ...
strings are never captured" needs a notion of string-literal position that is
absent from the regex scan.  `tqMark cs inside` marks each position of `cs`
with whether it lies inside a triple-double-quoted string literal (delimiter
characters keep the state that was current when they were read). -/
def tqMark : List Char → Bool → List Bool
  | '"' :: '"' :: '"' :: rest, inside => inside :: inside :: inside :: tqMark rest (!inside)
  | _ :: rest, inside => inside :: tqMark rest inside
  | [], _ => []

/-- The needle occurs somewhere in the haystack. -/
def occursIn (needle hay : List Char) : Bool :=
  (List.range hay.length).any (fun i => startsWithSeq needle (hay.drop i))

/-- All of positions `i, ..., i+len-1` are marked. -/
def insideAll (marks : List Bool) (i len : Nat) : Bool :=
  ((marks.drop i).take len).all (fun b => b)

/-- Every occurrence of the needle lies wholly inside a triple-quoted string. -/
def onlyInsideTQ (needle hay : List Char) : Bool :=
  (List.range hay.length).all (fun i =>
    !(startsWithSeq needle (hay.drop i)) || insideAll (tqMark hay false) i needle.length)

/-- A source text whose only occurrence of `fake` is inside a string literal. -/
def tqBad : String := "x = \"\"\"\nimport fake\n\"\"\"\n"

/-- The scenario input of the spec: three lines importing `os`, `requests`
and (from) `bs4`. -/
def text8 : String := "import os\nimport requests\nfrom bs4 import BeautifulSoup\n"

/-! ### Basic facts about the character classes and runs -/

theorem isWsChar_not_id {c : Char} (h : isWsChar c = true) : isIdChar c = false := by
  simp only [isWsChar, Bool.or_eq_true, decide_eq_true_eq] at h
  rcases h with ((((h | h) | h) | h) | h) | h <;> subst h <;> decide

theorem isIdChar_not_ws {c : Char} (h : isIdChar c = true) : isWsChar c = false := by
  cases hw : isWsChar c
  · rfl
  · rw [isWsChar_not_id hw] at h
    exact absurd h (by simp)

theorem wsRun_le : ∀ u : List Char, wsRun u ≤ u.length
  | [] => Nat.le_refl 0
  | c :: t => by
    rw [wsRun]
    by_cases h : isWsChar c = true
    · rw [if_pos h]
      exact Nat.succ_le_succ (wsRun_le t)
    · rw [if_neg h]
      exact Nat.zero_le _

theorem idRun_le : ∀ u : List Char, idRun u ≤ u.length
  | [] => Nat.le_refl 0
  | c :: t => by
    rw [idRun]
    by_cases h : isIdChar c = true
    · rw [if_pos h]
      exact Nat.succ_le_succ (idRun_le t)
    · rw [if_neg h]
      exact Nat.zero_le _

theorem wsRun_take_ws : ∀ u : List Char, ∀ c ∈ u.take (wsRun u), isWsChar c = true
  | [] => by simp
  | c :: t => by
    rw [wsRun]
    by_cases h : isWsChar c = true
    · rw [if_pos h]
      intro x hx
      rw [List.take_succ_cons] at hx
      rcases List.mem_cons.mp hx with h1 | h1
      · exact h1 ▸ h
      · exact wsRun_take_ws t x h1
    · rw [if_neg h]
      simp

theorem idRun_take_id : ∀ u : List Char, ∀ c ∈ u.take (idRun u), isIdChar c = true
  | [] => by simp
  | c :: t => by
    rw [idRun]
    by_cases h : isIdChar c = true
    · rw [if_pos h]
      intro x hx
      rw [List.take_succ_cons] at hx
      rcases List.mem_cons.mp hx with h1 | h1
      · exact h1 ▸ h
      · exact idRun_take_id t x h1
    · rw [if_neg h]
      simp

theorem idRun_next : ∀ u : List Char, ∀ c, (u.drop (idRun u)).head? = some c → isIdChar c = false
  | [], c => by simp
  | b :: t, c => by
    rw [idRun]
    by_cases h : isIdChar b = true
    · rw [if_pos h, List.drop_succ_cons]
      exact idRun_next t c
    · rw [if_neg h, List.drop_zero, List.head?_cons]
      intro hc
      cases hc
      exact Bool.eq_false_iff.mpr h





theorem wsRun_append (w s : List Char) (hw : ∀ c ∈ w, isWsChar c = true)
    (hs : headWs s = false) : wsRun (w ++ s) = w.length := by
  induction w with
  | nil =>
    simp only [List.nil_append, List.length_nil]
    cases s with
    | nil => rfl
    | cons c t =>
      rw [wsRun, if_neg]
      rw [headWs] at hs
      simp [hs]
  | cons c t ih =>
    rw [List.cons_append, wsRun, if_pos (hw c (List.mem_cons_self c t)),
      ih (fun x hx => hw x (List.mem_cons_of_mem c hx))]
    rfl

theorem idRun_append (a s : List Char) (ha : ∀ c ∈ a, isIdChar c = true)
    (hs : headId s = false) : idRun (a ++ s) = a.length := by
  induction a with
  | nil =>
    simp only [List.nil_append, List.length_nil]
    cases s with
    | nil => rfl
    | cons c t =>
      rw [idRun, if_neg]
      rw [headId] at hs
      simp [hs]
  | cons c t ih =>
    rw [List.cons_append, idRun, if_pos (ha c (List.mem_cons_self c t)),
      ih (fun x hx => ha x (List.mem_cons_of_mem c hx))]
    rfl

theorem startsWithSeq_append_self : ∀ p s : List Char, startsWithSeq p (p ++ s) = true
  | [], _ => rfl
  | c :: t, s => by
    rw [List.cons_append, startsWithSeq, if_pos rfl]
    exact startsWithSeq_append_self t s

theorem startsWithSeq_prefix : ∀ p u : List Char, startsWithSeq p u = true →
    u = p ++ u.drop p.length
  | [], u, _ => by simp
  | c :: t, [], h => by exact absurd h (by rw [startsWithSeq]; simp)
  | c :: t, b :: u, h => by
    rw [startsWithSeq] at h
    by_cases hc : c = b
    · rw [if_pos hc] at h
      rw [List.length_cons, List.cons_append, List.drop_succ_cons, ← hc,
        ← startsWithSeq_prefix t u h]
    · rw [if_neg hc] at h
      exact absurd h (by simp)

theorem startsWithSeq_length {p u : List Char} (h : startsWithSeq p u = true) :
    p.length ≤ u.length := by
  have := startsWithSeq_prefix p u h
  have h2 : u.length = p.length + (u.drop p.length).length := by
    conv_lhs => rw [this]
    simp
  omega

theorem dropLine_length_le : ∀ u : List Char, (dropLine u).length ≤ u.length
  | [] => Nat.le_refl 0
  | c :: t => by
    rw [dropLine]
    by_cases h : c = '\n'
    · rw [if_pos h, List.length_cons]
      exact Nat.le_succ _
    · rw [if_neg h, List.length_cons]
      exact Nat.le_succ_of_le (dropLine_length_le t)

theorem dropLine_length_lt : ∀ u : List Char, u ≠ [] → (dropLine u).length < u.length
  | [], h => absurd rfl h
  | c :: t, _ => by
    rw [dropLine]
    by_cases h : c = '\n'
    · rw [if_pos h, List.length_cons]
      exact Nat.lt_succ_self _
    · rw [if_neg h, List.length_cons]
      exact Nat.lt_succ_of_le (dropLine_length_le t)

theorem dropLine_append (s t : List Char) (hs : '\n' ∉ s) :
    dropLine (s ++ '\n' :: t) = t := by
  induction s with
  | nil => rw [List.nil_append, dropLine, if_pos rfl]
  | cons c u ih =>
    rw [List.cons_append, dropLine,
      if_neg (fun hc : c = '\n' => hs (List.mem_cons.mpr (Or.inl hc.symm))),
      ih (fun hc => hs (List.mem_cons_of_mem c hc))]

/-! ### Characterisation of a successful match -/

theorem matchAt_nil : matchAt [] = none := rfl

theorem kwAt_eq_some {u : List Char} {k : Nat} (h : kwAt u = some k) :
    (k = 6 ∧ startsWithSeq kwImport u = true) ∨
    (k = 4 ∧ startsWithSeq kwFrom u = true) := by
  rw [kwAt] at h
  by_cases h1 : startsWithSeq kwImport u = true
  · rw [if_pos h1] at h
    cases h
    exact Or.inl ⟨rfl, h1⟩
  · rw [if_neg h1] at h
    by_cases h2 : startsWithSeq kwFrom u = true
    · rw [if_pos h2] at h
      cases h
      exact Or.inr ⟨rfl, h2⟩
    · rw [if_neg h2] at h
      cases h

theorem matchAt_bounds {u cap : List Char} {len : Nat}
    (h : matchAt u = some (cap, len)) : 1 ≤ len ∧ len ≤ u.length := by
  simp only [matchAt] at h
  split at h
  · cases h
  · rename_i k hk
    split at h
    · cases h
    · rename_i hb
      split at h
      · cases h
      · rename_i hd
        have hlen : len = wsRun u + k + wsRun ((u.drop (wsRun u)).drop k) +
            idRun (((u.drop (wsRun u)).drop k).drop (wsRun ((u.drop (wsRun u)).drop k))) := by
          cases h
          rfl
        have ha : wsRun u ≤ u.length := wsRun_le u
        have hkle : k ≤ (u.drop (wsRun u)).length := by
          rcases kwAt_eq_some hk with ⟨h6, hs⟩ | ⟨h4, hs⟩
          · have := startsWithSeq_length hs
            simpa [kwImport, h6] using this
          · have := startsWithSeq_length hs
            simpa [kwFrom, h4] using this
        have hble : wsRun ((u.drop (wsRun u)).drop k) ≤ ((u.drop (wsRun u)).drop k).length :=
          wsRun_le _
        have hdle : idRun (((u.drop (wsRun u)).drop k).drop (wsRun ((u.drop (wsRun u)).drop k))) ≤
            (((u.drop (wsRun u)).drop k).drop (wsRun ((u.drop (wsRun u)).drop k))).length :=
          idRun_le _
        simp only [List.length_drop] at hkle hble hdle
        omega





theorem matchAt_shape {u n : List Char} {len : Nat}
    (h : matchAt u = some (n, len)) : CaptureShape u n := by
  simp only [matchAt] at h
  split at h
  · cases h
  · rename_i k hk
    split at h
    · cases h
    · rename_i hb
      split at h
      · cases h
      · rename_i hd
        have hn : n = (((u.drop (wsRun u)).drop k).drop
            (wsRun ((u.drop (wsRun u)).drop k))).take
            (idRun (((u.drop (wsRun u)).drop k).drop (wsRun ((u.drop (wsRun u)).drop k)))) := by
          cases h
          rfl
        set u1 := u.drop (wsRun u) with hu1
        set u2 := u1.drop k with hu2
        set u3 := u2.drop (wsRun u2) with hu3
        rcases kwAt_eq_some hk with ⟨h6, hs⟩ | ⟨h4, hs⟩
        · refine ⟨u.take (wsRun u), kwImport, u2.take (wsRun u2),
            u3.drop (idRun u3), Or.inl rfl, ?_, ?_, ?_, ?_, ?_, ?_, ?_⟩
          · have e1 : u = u.take (wsRun u) ++ u1 := (List.take_append_drop _ u).symm
            have e2 : u1 = kwImport ++ u2 := by
              have := startsWithSeq_prefix _ _ hs
              rw [hu2, h6]
              simpa [kwImport] using this
            have e3 : u2 = u2.take (wsRun u2) ++ u3 := (List.take_append_drop _ u2).symm
            have e4 : u3 = n ++ u3.drop (idRun u3) := by
              rw [hn]
              exact (List.take_append_drop _ u3).symm
            calc u = u.take (wsRun u) ++ u1 := e1
              _ = u.take (wsRun u) ++ (kwImport ++ u2) := by rw [← e2]
              _ = u.take (wsRun u) ++ (kwImport ++ (u2.take (wsRun u2) ++ u3)) := by rw [← e3]
              _ = u.take (wsRun u) ++ (kwImport ++ (u2.take (wsRun u2) ++
                    (n ++ u3.drop (idRun u3)))) := by rw [← e4]
              _ = u.take (wsRun u) ++ kwImport ++ u2.take (wsRun u2) ++ n ++
                    u3.drop (idRun u3) := by simp [List.append_assoc]
          · exact wsRun_take_ws u
          · exact wsRun_take_ws u2
          · have : (u2.take (wsRun u2)).length = wsRun u2 := by
              rw [List.length_take]
              exact Nat.min_eq_left (wsRun_le u2)
            intro hnil
            rw [hnil] at this
            simp at this
            omega
          · have : n.length = idRun u3 := by
              rw [hn, List.length_take]
              exact Nat.min_eq_left (idRun_le u3)
            intro hnil
            rw [hnil] at this
            simp at this
            omega
          · rw [hn]
            exact idRun_take_id u3
          · rw [hu3]
            exact idRun_next u3
        · refine ⟨u.take (wsRun u), kwFrom, u2.take (wsRun u2),
            u3.drop (idRun u3), Or.inr rfl, ?_, ?_, ?_, ?_, ?_, ?_, ?_⟩
          · have e1 : u = u.take (wsRun u) ++ u1 := (List.take_append_drop _ u).symm
            have e2 : u1 = kwFrom ++ u2 := by
              have := startsWithSeq_prefix _ _ hs
              rw [hu2, h4]
              simpa [kwFrom] using this
            have e3 : u2 = u2.take (wsRun u2) ++ u3 := (List.take_append_drop _ u2).symm
            have e4 : u3 = n ++ u3.drop (idRun u3) := by
              rw [hn]
              exact (List.take_append_drop _ u3).symm
            calc u = u.take (wsRun u) ++ u1 := e1
              _ = u.take (wsRun u) ++ (kwFrom ++ u2) := by rw [← e2]
              _ = u.take (wsRun u) ++ (kwFrom ++ (u2.take (wsRun u2) ++ u3)) := by rw [← e3]
              _ = u.take (wsRun u) ++ (kwFrom ++ (u2.take (wsRun u2) ++
                    (n ++ u3.drop (idRun u3)))) := by rw [← e4]
              _ = u.take (wsRun u) ++ kwFrom ++ u2.take (wsRun u2) ++ n ++
                    u3.drop (idRun u3) := by simp [List.append_assoc]
          · exact wsRun_take_ws u
          · exact wsRun_take_ws u2
          · have : (u2.take (wsRun u2)).length = wsRun u2 := by
              rw [List.length_take]
              exact Nat.min_eq_left (wsRun_le u2)
            intro hnil
            rw [hnil] at this
            simp at this
            omega
          · have : n.length = idRun u3 := by
              rw [hn, List.length_take]
              exact Nat.min_eq_left (idRun_le u3)
            intro hnil
            rw [hnil] at this
            simp at this
            omega
          · rw [hn]
            exact idRun_take_id u3
          · rw [hu3]
            exact idRun_next u3

/-! ### The scanner: unfolding, fuel irrelevance and the position invariant -/

theorem scanAux_succ (f : Nat) (u : List Char) :
    scanAux (f + 1) u = (matchAt u).elim (scanAux f (dropLine u))
      (fun p => p.1 :: scanAux f (dropLine (u.drop p.2))) := rfl

theorem scanAux_nil : ∀ f : Nat, scanAux f [] = []
  | 0 => rfl
  | f + 1 => by
    rw [scanAux_succ, matchAt_nil]
    exact scanAux_nil f

theorem matchAt_ne_nil {u cap : List Char} {len : Nat}
    (h : matchAt u = some (cap, len)) : u ≠ [] := by
  intro hu
  rw [hu, matchAt_nil] at h
  cases h

theorem scanAux_succ_some (f : Nat) {u cap : List Char} {len : Nat}
    (hm : matchAt u = some (cap, len)) :
    scanAux (f + 1) u = cap :: scanAux f (dropLine (u.drop len)) := by
  rw [scanAux_succ, hm]
  rfl

theorem scanAux_succ_none (f : Nat) {u : List Char} (hm : matchAt u = none) :
    scanAux (f + 1) u = scanAux f (dropLine u) := by
  rw [scanAux_succ, hm]
  rfl

theorem scanAux_congr : ∀ f g : Nat, ∀ u : List Char,
    u.length ≤ f → u.length ≤ g → scanAux f u = scanAux g u
  | 0, g, u, hf, _ => by
    have : u = [] := List.eq_nil_of_length_eq_zero (Nat.le_zero.mp hf)
    rw [this, scanAux_nil, scanAux_nil]
  | f + 1, 0, u, _, hg => by
    have : u = [] := List.eq_nil_of_length_eq_zero (Nat.le_zero.mp hg)
    rw [this, scanAux_nil, scanAux_nil]
  | f + 1, g + 1, u, hf, hg => by
    by_cases hne : u = []
    · rw [hne, scanAux_nil, scanAux_nil]
    · have hupos : 1 ≤ u.length := List.length_pos.mpr hne
      cases hm : matchAt u with
      | some x =>
        obtain ⟨cap, len⟩ := x
        have hb := matchAt_bounds hm
        have harg : (dropLine (u.drop len)).length ≤ u.length - 1 := by
          have h1 := dropLine_length_le (u.drop len)
          rw [List.length_drop] at h1
          omega
        rw [scanAux_succ_some f hm, scanAux_succ_some g hm,
          scanAux_congr f g (dropLine (u.drop len)) (by omega) (by omega)]
      | none =>
        have harg : (dropLine u).length ≤ u.length - 1 := by
          have := dropLine_length_lt u hne
          omega
        rw [scanAux_succ_none f hm, scanAux_succ_none g hm,
          scanAux_congr f g (dropLine u) (by omega) (by omega)]

theorem scanCaptures_fuel (f : Nat) (cs : List Char) (h : cs.length ≤ f) :
    scanCaptures cs = scanAux f cs :=
  scanAux_congr cs.length f cs (Nat.le_refl _) h

theorem lineStartSuffix_isSuffix {cs u : List Char} (h : LineStartSuffix cs u) :
    u.IsSuffix cs := by
  rcases h with h | ⟨v, hv⟩
  · rw [h]
  · exact ⟨v ++ ['\n'], by rw [hv]; simp⟩

theorem dropLine_lineStartSuffix : ∀ w cs : List Char, w.IsSuffix cs →
    dropLine w = [] ∨ LineStartSuffix cs (dropLine w)
  | [], _, _ => Or.inl rfl
  | c :: t, cs, hsuf => by
    by_cases hc : c = '\n'
    · obtain ⟨q, hq⟩ := hsuf
      refine Or.inr (Or.inr ⟨q, ?_⟩)
      rw [dropLine, if_pos hc, ← hq, hc]
    · rw [dropLine, if_neg hc]
      refine dropLine_lineStartSuffix t cs ?_
      obtain ⟨q, hq⟩ := hsuf
      exact ⟨q ++ [c], by rw [← hq]; simp⟩

theorem scanAux_shape (cs : List Char) : ∀ f : Nat, ∀ u : List Char,
    (LineStartSuffix cs u ∨ u = []) →
    ∀ n ∈ scanAux f u, ∃ v, LineStartSuffix cs v ∧ CaptureShape v n
  | 0, _, _, _, hn => absurd hn (List.not_mem_nil _)
  | f + 1, u, hinv, n, hn => by
    by_cases hne : u = []
    · rw [hne, scanAux_nil] at hn
      exact absurd hn (List.not_mem_nil _)
    · have hlss : LineStartSuffix cs u := by
        rcases hinv with h | h
        · exact h
        · exact absurd h hne
      have hsuf : u.IsSuffix cs := lineStartSuffix_isSuffix hlss
      cases hm : matchAt u with
      | some x =>
        obtain ⟨cap, len⟩ := x
        rw [scanAux_succ_some f hm, List.mem_cons] at hn
        rcases hn with hn | hn
        · exact ⟨u, hlss, hn ▸ matchAt_shape hm⟩
        · have hsuf2 : (u.drop len).IsSuffix cs := (List.drop_suffix len u).trans hsuf
          have hinv2 : LineStartSuffix cs (dropLine (u.drop len)) ∨
              dropLine (u.drop len) = [] :=
            (dropLine_lineStartSuffix (u.drop len) cs hsuf2).symm
          exact scanAux_shape cs f (dropLine (u.drop len)) hinv2 n hn
      | none =>
        rw [scanAux_succ_none f hm] at hn
        have hinv2 : LineStartSuffix cs (dropLine u) ∨ dropLine u = [] :=
          (dropLine_lineStartSuffix u cs hsuf).symm
        exact scanAux_shape cs f (dropLine u) hinv2 n hn

theorem lineStartSuffix_refl (cs : List Char) : LineStartSuffix cs cs :=
  Or.inl rfl

theorem scanCaptures_shape {cs n : List Char} (hn : n ∈ scanCaptures cs) :
    ∃ v, LineStartSuffix cs v ∧ CaptureShape v n :=
  scanAux_shape cs cs.length cs (Or.inl (lineStartSuffix_refl cs)) n hn

/-! ### Computing the scanner on decomposed line shapes -/

theorem kwAt_append_import (x : List Char) : kwAt (kwImport ++ x) = some 6 := by
  have h1 : startsWithSeq kwImport (kwImport ++ x) = true := startsWithSeq_append_self _ _
  simp [kwAt, h1]

theorem kwAt_append_from (x : List Char) : kwAt (kwFrom ++ x) = some 4 := by
  have h1 : startsWithSeq kwImport (kwFrom ++ x) = false := rfl
  have h2 : startsWithSeq kwFrom (kwFrom ++ x) = true := startsWithSeq_append_self _ _
  simp [kwAt, h1, h2]

theorem matchAt_relative (w w1 s : List Char)
    (hw : ∀ c ∈ w, isWsChar c = true) (hw1 : ∀ c ∈ w1, isWsChar c = true)
    (hw1n : w1 ≠ []) :
    matchAt (w ++ (kwFrom ++ (w1 ++ ('.' :: s)))) = none := by
  have ha : wsRun (w ++ (kwFrom ++ (w1 ++ ('.' :: s)))) = w.length :=
    wsRun_append w _ hw rfl
  have hdrop : (w ++ (kwFrom ++ (w1 ++ ('.' :: s)))).drop w.length =
      kwFrom ++ (w1 ++ ('.' :: s)) := List.drop_left w _
  have hb : wsRun (w1 ++ ('.' :: s)) = w1.length := wsRun_append w1 _ hw1 rfl
  have hbpos : 0 < w1.length := List.length_pos.mpr hw1n
  have hdrop2 : (kwFrom ++ (w1 ++ ('.' :: s))).drop 4 = w1 ++ ('.' :: s) :=
    List.drop_left kwFrom _
  have hdrop3 : (w1 ++ ('.' :: s)).drop w1.length = '.' :: s := List.drop_left w1 _
  have hid : idRun ('.' :: s) = 0 := rfl
  simp only [matchAt, ha, hdrop, kwAt_append_from, hdrop2, hb, hdrop3, hid]
  simp

theorem matchAt_line_import (w w1 a s : List Char) (x : Char)
    (hw : ∀ c ∈ w, isWsChar c = true) (hw1 : ∀ c ∈ w1, isWsChar c = true)
    (hw1n : w1 ≠ []) (ha : ∀ c ∈ a, isIdChar c = true) (han : a ≠ [])
    (hx : isIdChar x = false) :
    matchAt (w ++ (kwImport ++ (w1 ++ (a ++ (x :: s))))) =
      some (a, w.length + 6 + w1.length + a.length) := by
  have hra : wsRun (w ++ (kwImport ++ (w1 ++ (a ++ (x :: s))))) = w.length :=
    wsRun_append w _ hw rfl
  have hdrop : (w ++ (kwImport ++ (w1 ++ (a ++ (x :: s))))).drop w.length =
      kwImport ++ (w1 ++ (a ++ (x :: s))) := List.drop_left w _
  have hheadws : headWs (a ++ (x :: s)) = false := by
    obtain ⟨c, t, rfl⟩ := List.exists_cons_of_ne_nil han
    have : headWs ((c :: t) ++ (x :: s)) = isWsChar c := rfl
    rw [this]
    exact isIdChar_not_ws (ha c (List.mem_cons_self c t))
  have hb : wsRun (w1 ++ (a ++ (x :: s))) = w1.length := wsRun_append w1 _ hw1 hheadws
  have hbpos : 0 < w1.length := List.length_pos.mpr hw1n
  have hdrop2 : (kwImport ++ (w1 ++ (a ++ (x :: s)))).drop 6 = w1 ++ (a ++ (x :: s)) :=
    List.drop_left kwImport _
  have hdrop3 : (w1 ++ (a ++ (x :: s))).drop w1.length = a ++ (x :: s) :=
    List.drop_left w1 _
  have hheadid : headId (x :: s) = isIdChar x := rfl
  have hid : idRun (a ++ (x :: s)) = a.length := idRun_append a _ ha (hheadid.trans hx)
  have hdpos : 0 < a.length := List.length_pos.mpr han
  have htake : (a ++ (x :: s)).take a.length = a := List.take_left a _
  simp only [matchAt, hra, hdrop, kwAt_append_import, hdrop2, hb, hdrop3, hid, htake]
  rw [if_neg (by omega), if_neg (by omega)]

/-! ### Code-point lexicographic order on strings (Python `sorted`) -/

theorem char_toNat_inj {a b : Char} (h : a.toNat = b.toNat) : a = b := by
  cases a
  cases b
  have : _ = _ := UInt32.ext h
  simp_all

theorem string_toList_inj {a b : String} (h : a.toList = b.toList) : a = b :=
  String.ext h



theorem lexLe_cons (a b : Char) (as bs : List Char) :
    lexLe (a :: as) (b :: bs) =
      if a.toNat = b.toNat then lexLe as bs else decide (a.toNat < b.toNat) := rfl

theorem lexLe_total : ∀ x y : List Char, lexLe x y = true ∨ lexLe y x = true
  | [], _ => Or.inl rfl
  | _ :: _, [] => Or.inr rfl
  | a :: as, b :: bs => by
    rw [lexLe_cons, lexLe_cons]
    by_cases h : a.toNat = b.toNat
    · rw [if_pos h, if_pos h.symm]
      exact lexLe_total as bs
    · have h' : ¬ b.toNat = a.toNat := fun hh => h hh.symm
      rw [if_neg h, if_neg h']
      rcases Nat.lt_or_ge a.toNat b.toNat with h1 | h1
      · exact Or.inl (by simpa using h1)
      · have h2 : b.toNat < a.toNat := Nat.lt_of_le_of_ne h1 h'
        exact Or.inr (by simpa using h2)

theorem lexLe_trans : ∀ x y z : List Char,
    lexLe x y = true → lexLe y z = true → lexLe x z = true
  | [], _, _, _, _ => rfl
  | _ :: _, [], _, h, _ => by simp [lexLe] at h
  | _ :: _, _ :: _, [], _, h => by simp [lexLe] at h
  | a :: as, b :: bs, c :: cs, h1, h2 => by
    rw [lexLe_cons] at h1 h2 ⊢
    by_cases hab : a.toNat = b.toNat <;> by_cases hbc : b.toNat = c.toNat
    · rw [if_pos hab] at h1
      rw [if_pos hbc] at h2
      rw [if_pos (hab.trans hbc)]
      exact lexLe_trans as bs cs h1 h2
    · rw [if_neg hbc] at h2
      have h2' : b.toNat < c.toNat := by simpa using h2
      rw [if_neg (by omega)]
      simp
      omega
    · rw [if_neg hab] at h1
      have h1' : a.toNat < b.toNat := by simpa using h1
      rw [if_neg (by omega)]
      simp
      omega
    · rw [if_neg hab] at h1
      rw [if_neg hbc] at h2
      have h1' : a.toNat < b.toNat := by simpa using h1
      have h2' : b.toNat < c.toNat := by simpa using h2
      rw [if_neg (by omega)]
      simp
      omega

theorem lexLe_antisymm : ∀ x y : List Char, lexLe x y = true → lexLe y x = true → x = y
  | [], [], _, _ => rfl
  | [], _ :: _, _, h => by simp [lexLe] at h
  | _ :: _, [], h, _ => by simp [lexLe] at h
  | a :: as, b :: bs, h1, h2 => by
    rw [lexLe_cons] at h1 h2
    by_cases hab : a.toNat = b.toNat
    · rw [if_pos hab] at h1
      rw [if_pos hab.symm] at h2
      rw [char_toNat_inj hab, lexLe_antisymm as bs h1 h2]
    · rw [if_neg hab] at h1
      rw [if_neg (fun hh => hab hh.symm)] at h2
      have h1' : a.toNat < b.toNat := by simpa using h1
      have h2' : b.toNat < a.toNat := by simpa using h2
      omega





instance : IsTotal String strLe :=
  ⟨fun a b => lexLe_total a.toList b.toList⟩

instance : IsTrans String strLe :=
  ⟨fun a b c => lexLe_trans a.toList b.toList c.toList⟩

instance : IsAntisymm String strLe :=
  ⟨fun _x _y h1 h2 => string_toList_inj (lexLe_antisymm _ _ h1 h2)⟩



/-! ### The resolver as filter-then-map -/

theorem map_to_pip_eq (l : List String) :
    map_to_pip_packages l = (l.filter (fun i => !(stdlib.contains i))).map resolvePip := by
  induction l with
  | nil => rfl
  | cons i rest ih =>
    by_cases h : i ∈ stdlib
    · simp [map_to_pip_packages, List.filter_cons, h, ih]
    · simp [map_to_pip_packages, List.filter_cons, h, ih]

theorem resolvePip_mem_map_to_pip {l : List String} {i : String} (hi : i ∈ l)
    (hns : stdlib.contains i = false) : resolvePip i ∈ map_to_pip_packages l := by
  rw [map_to_pip_eq]
  have h2 : i ∉ stdlib := by simpa using hns
  exact List.mem_map_of_mem resolvePip (List.mem_filter.mpr ⟨hi, by simp [h2]⟩)







/-! ### Claims -/

/-- C2: for every input set of import names, the resolver's output is exactly
the alias-resolution of the non-stdlib names: stdlib members are dropped,
every other name contributes exactly one entry, and every entry of the
output derives from some non-stdlib input name. -/
theorem resolver_stdlib_partition (l : List String) :
    map_to_pip_packages l = (l.filter (fun i => !(stdlib.contains i))).map resolvePip ∧
    (map_to_pip_packages l).length = (l.filter (fun i => !(stdlib.contains i))).length ∧
    ∀ p ∈ map_to_pip_packages l, ∃ i ∈ l, stdlib.contains i = false ∧ resolvePip i = p := by
  refine ⟨map_to_pip_eq l, by rw [map_to_pip_eq, List.length_map], ?_⟩
  intro p hp
  rw [map_to_pip_eq] at hp
  obtain ⟨i, hi, rfl⟩ := List.mem_map.mp hp
  have h := List.mem_filter.mp hi
  exact ⟨i, h.1, by simpa using h.2, rfl⟩

/-- Witness for `resolver_stdlib_partition` at a concrete input. -/
theorem resolver_stdlib_partition_witness :
    ∃ i ∈ ["os", "requests"], stdlib.contains i = false ∧ resolvePip i = "requests" :=
  (resolver_stdlib_partition ["os", "requests"]).2.2 "requests" (by decide)

/-- C3: each non-stdlib name is emitted through the alias table when a
translation exists and verbatim otherwise; the seven tabled translations
are exactly the ones of the source. -/
theorem resolver_alias_translation :
    (resolvePip "cv2" = "opencv-python" ∧ resolvePip "PIL" = "Pillow" ∧
     resolvePip "sklearn" = "scikit-learn" ∧ resolvePip "yaml" = "pyyaml" ∧
     resolvePip "dotenv" = "python-dotenv" ∧ resolvePip "bs4" = "beautifulsoup4" ∧
     resolvePip "dateutil" = "python-dateutil") ∧
    (∀ i : String, package_mapping.lookup i = none → resolvePip i = i) ∧
    (∀ (l : List String) (i : String), i ∈ l → stdlib.contains i = false →
      resolvePip i ∈ map_to_pip_packages l) := by
  refine ⟨by decide, ?_, ?_⟩
  · intro i h
    rw [resolvePip, h]
    rfl
  · intro l i hi hns
    exact resolvePip_mem_map_to_pip hi hns

/-- Witness for `resolver_alias_translation` at concrete inputs. -/
theorem resolver_alias_translation_witness :
    resolvePip "numpy" = "numpy" ∧ resolvePip "cv2" ∈ map_to_pip_packages ["cv2", "os"] :=
  ⟨resolver_alias_translation.2.1 "numpy" (by decide),
   resolver_alias_translation.2.2 ["cv2", "os"] "cv2" (by decide) (by decide)⟩

/-- C4 (counterexample): the resolver does not deduplicate.  The duplicate-free
input set `{bs4, beautifulsoup4}` resolves to a PackageList that contains
`beautifulsoup4` twice. -/
theorem resolver_duplicate_counterexample :
    ["bs4", "beautifulsoup4"].Nodup ∧
    map_to_pip_packages ["bs4", "beautifulsoup4"] = ["beautifulsoup4", "beautifulsoup4"] ∧
    ¬ (map_to_pip_packages ["bs4", "beautifulsoup4"]).Nodup := by decide

/-- C4 (amended): the PackageList has one entry per non-stdlib import name, so
it is duplicate-free whenever no two distinct non-stdlib input names resolve
to the same package name; an alias key together with its own target (such as
`bs4` with `beautifulsoup4`) violates that proviso and yields a duplicate. -/
theorem resolver_nodup_of_inj (l : List String) (hl : l.Nodup)
    (hinj : ∀ i ∈ l, ∀ j ∈ l, stdlib.contains i = false → stdlib.contains j = false →
      resolvePip i = resolvePip j → i = j) :
    (map_to_pip_packages l).Nodup := by
  rw [map_to_pip_eq]
  refine List.Nodup.map_on ?_ (hl.filter _)
  intro x hx y hy hf
  have hx' := List.mem_filter.mp hx
  have hy' := List.mem_filter.mp hy
  exact hinj x hx'.1 y hy'.1 (by simpa using hx'.2) (by simpa using hy'.2) hf

/-- Witness for `resolver_nodup_of_inj` at a concrete input. -/
theorem resolver_nodup_of_inj_witness :
    (map_to_pip_packages ["requests", "bs4"]).Nodup :=
  resolver_nodup_of_inj ["requests", "bs4"] (by decide) (by decide)

/-- C5: when the read step fails, `parse_imports` does not propagate the
failure: it reports one warning line and returns the empty set, from which
the resolver then derives zero dependencies. -/
theorem extractor_read_failure (path e : String) :
    parse_imports_from_read path (Except.error e) =
      ([], ["Warning: Could not parse imports from " ++ path ++ ": " ++ e]) ∧
    map_to_pip_packages (parse_imports_from_read path (Except.error e)).1 = [] :=
  ⟨rfl, rfl⟩

/-- C7: the process exits 0 exactly when the input exists, ends in `.py` and
the build succeeds, and exits 1 otherwise; the run step's outcome and the
`--no-run` flag never influence the exit code. -/
theorem main_exit_codes (fe : Bool) (pf : String) (b nr r : Bool) :
    (mainExitCode fe pf b nr r =
      if fe && strEndsWith pf.toList ".py".toList && b then 0 else 1) ∧
    (∀ nr2 r2 : Bool, mainExitCode fe pf b nr r = mainExitCode fe pf b nr2 r2) ∧
    (mainExitCode fe pf b nr r = 0 ∨ mainExitCode fe pf b nr r = 1) := by
  refine ⟨?_, fun nr2 r2 => rfl, ?_⟩
  · simp only [mainExitCode]
    generalize strEndsWith pf.toList ".py".toList = e
    cases fe <;> cases b <;> cases e <;> simp
  · simp only [mainExitCode]
    generalize strEndsWith pf.toList ".py".toList = e
    cases fe <;> cases b <;> cases e <;> simp

/-- C6: with an empty PackageList no requirements file is produced and the
Dockerfile carries the no-external-dependencies comment in place of an
install step; with a non-empty PackageList the requirements file holds one
package per line in sorted (code-point lexicographic) order and the
Dockerfile carries the install step listing the packages. -/
theorem manifest_and_dockerfile (name : String) (pkgs : List String) :
    (pkgs = [] → create_requirements_content pkgs = none ∧
      create_dockerfile_content name pkgs =
        dfHead name ++ "# No external dependencies detected\n" ++ dfTail name) ∧
    (pkgs ≠ [] →
      List.Sorted strLe (sortedStr pkgs) ∧ (sortedStr pkgs).Perm pkgs ∧
      create_requirements_content pkgs =
        some (String.join ((sortedStr pkgs).map (fun p => p ++ "\n"))) ∧
      create_dockerfile_content name pkgs =
        dfHead name ++ ("RUN pip install --no-cache-dir " ++
          String.intercalate " " pkgs ++ "\n") ++ dfTail name) := by
  constructor
  · rintro rfl
    exact ⟨rfl, rfl⟩
  · intro hne
    have hemp : pkgs.isEmpty = false := by
      cases hp : pkgs with
      | nil => exact absurd hp hne
      | cons a t => rfl
    refine ⟨List.sorted_insertionSort strLe pkgs, List.perm_insertionSort strLe pkgs, ?_, ?_⟩
    · rw [create_requirements_content, hemp]
      rfl
    · rw [create_dockerfile_content, hemp]
      rfl

/-- Witness for `manifest_and_dockerfile` at concrete inputs, exercising both
the empty and the non-empty branch. -/
theorem manifest_and_dockerfile_witness :
    (create_requirements_content [] = none ∧
     create_dockerfile_content "app.py" [] =
       dfHead "app.py" ++ "# No external dependencies detected\n" ++ dfTail "app.py") ∧
    (List.Sorted strLe (sortedStr ["requests", "beautifulsoup4"]) ∧
     (sortedStr ["requests", "beautifulsoup4"]).Perm ["requests", "beautifulsoup4"] ∧
     create_requirements_content ["requests", "beautifulsoup4"] =
       some (String.join ((sortedStr ["requests", "beautifulsoup4"]).map (fun p => p ++ "\n"))) ∧
     create_dockerfile_content "app.py" ["requests", "beautifulsoup4"] =
       dfHead "app.py" ++ ("RUN pip install --no-cache-dir " ++
         String.intercalate " " ["requests", "beautifulsoup4"] ++ "\n") ++ dfTail "app.py") :=
  ⟨(manifest_and_dockerfile "app.py" []).1 rfl,
   (manifest_and_dockerfile "app.py" ["requests", "beautifulsoup4"]).2 (by decide)⟩

/-- C8: on the three-line scenario input the extractor yields `os`,
`requests`, `bs4`; whatever order the set iterates in, the resolver output
is `requests` and `beautifulsoup4` (os dropped as stdlib) and the manifest
is the two sorted lines `beautifulsoup4` then `requests`. -/
theorem scenario_requests_bs4 :
    parse_imports text8 = ["os", "requests", "bs4"] ∧
    ∀ l : List String, l.Perm ["os", "requests", "bs4"] →
      (map_to_pip_packages l).Perm ["requests", "beautifulsoup4"] ∧
      create_requirements_content (map_to_pip_packages l) =
        some "beautifulsoup4\nrequests\n" := by
  refine ⟨by decide, ?_⟩
  intro l hperm
  have hmap : (map_to_pip_packages l).Perm (map_to_pip_packages ["os", "requests", "bs4"]) := by
    rw [map_to_pip_eq, map_to_pip_eq]
    exact (hperm.filter _).map _
  have hfixed : map_to_pip_packages ["os", "requests", "bs4"] = ["requests", "beautifulsoup4"] := by
    decide
  rw [hfixed] at hmap
  refine ⟨hmap, ?_⟩
  have hne : map_to_pip_packages l ≠ [] := by
    intro h0
    rw [h0] at hmap
    have := hmap.length_eq
    simp at this
  have hemp : (map_to_pip_packages l).isEmpty = false := by
    cases hm : map_to_pip_packages l with
    | nil => exact absurd hm hne
    | cons a t => rfl
  have hsorted_eq : sortedStr (map_to_pip_packages l) = ["beautifulsoup4", "requests"] := by
    refine List.eq_of_perm_of_sorted ?_ (List.sorted_insertionSort strLe _) (by decide)
    exact (List.perm_insertionSort strLe _).trans (hmap.trans (by decide))
  rw [create_requirements_content, hemp, hsorted_eq]
  rfl

/-- Witness for `scenario_requests_bs4` at the text-order iteration of the set. -/
theorem scenario_requests_bs4_witness :
    (map_to_pip_packages ["os", "requests", "bs4"]).Perm ["requests", "beautifulsoup4"] ∧
    create_requirements_content (map_to_pip_packages ["os", "requests", "bs4"]) =
      some "beautifulsoup4\nrequests\n" :=
  scenario_requests_bs4.2 ["os", "requests", "bs4"] (List.Perm.refl _)

/-- C1 (amended): every name in the extractor's result is captured as a
maximal nonempty identifier run preceded by an `import`/`from` keyword that
follows only whitespace from a line start (so names occurring only in
comments or in ordinary expression lines are never captured); the original
claim's further exclusion of identifiers inside string literals does not
hold, since a line inside a multi-line string can have this very shape. -/
theorem extractor_capture_line_shape (content : String) (s : String)
    (hs : s ∈ parse_imports content) :
    ∃ u, LineStartSuffix content.toList u ∧ CaptureShape u s.toList := by
  rw [parse_imports, List.mem_dedup] at hs
  obtain ⟨n, hn, rfl⟩ := List.mem_map.mp hs
  exact scanCaptures_shape hn

/-- Witness for `extractor_capture_line_shape` at a concrete input. -/
theorem extractor_capture_line_shape_witness :
    ("os" ∈ parse_imports "x = 1\nfrom os import path\n") ∧
    ∃ u, LineStartSuffix ("x = 1\nfrom os import path\n").toList u ∧
      CaptureShape u "os".toList :=
  ⟨by decide,
   extractor_capture_line_shape "x = 1\nfrom os import path\n" "os" (by decide)⟩

/-- C1 (counterexample): in `tqBad` the identifier `fake` occurs only inside
a triple-quoted string literal, yet the extractor captures it, because the
string's content places an import-statement shape at the start of a line. -/
theorem extractor_string_capture_counterexample :
    "fake" ∈ parse_imports tqBad ∧ occursIn "fake".toList tqBad.toList = true ∧
    onlyInsideTQ "fake".toList tqBad.toList = true := by decide

/-- C9: a line whose module reference starts with a dot (a relative import)
contributes nothing: whatever surrounds the dot, the scan of a text starting
with such a line equals the scan of the text after that line, because the
capture group needs an identifier character right after the keyword's
trailing whitespace and `.` is not one. -/
theorem relative_import_line_ignored (w w1 r t : List Char)
    (hw : ∀ c ∈ w, isWsChar c = true) (hw1 : ∀ c ∈ w1, isWsChar c = true)
    (hw1n : w1 ≠ []) (hwn : '\n' ∉ w) (hw1nl : '\n' ∉ w1) (hr : '\n' ∉ r) :
    scanCaptures (w ++ (kwFrom ++ (w1 ++ ('.' :: (r ++ ('\n' :: t)))))) =
      scanCaptures t := by
  have hm := matchAt_relative w w1 (r ++ ('\n' :: t)) hw hw1 hw1n
  have hlen : (w ++ (kwFrom ++ (w1 ++ ('.' :: (r ++ ('\n' :: t)))))).length =
      w.length + (4 + (w1.length + (1 + (r.length + (1 + t.length))))) := by
    simp [kwFrom]
    omega
  cases hL : (w ++ (kwFrom ++ (w1 ++ ('.' :: (r ++ ('\n' :: t)))))).length with
  | zero => omega
  | succ m =>
    have hrew : w ++ (kwFrom ++ (w1 ++ ('.' :: (r ++ ('\n' :: t))))) =
        (w ++ (kwFrom ++ (w1 ++ ('.' :: r)))) ++ ('\n' :: t) := by
      simp [List.append_assoc]
    have hnotin : '\n' ∉ w ++ (kwFrom ++ (w1 ++ ('.' :: r))) := by
      intro hmem
      rcases List.mem_append.mp hmem with h | h
      · exact hwn h
      rcases List.mem_append.mp h with h | h
      · revert h
        decide
      rcases List.mem_append.mp h with h | h
      · exact hw1nl h
      rcases List.mem_cons.mp h with h | h
      · exact absurd h (by decide)
      · exact hr h
    have hdl : dropLine (w ++ (kwFrom ++ (w1 ++ ('.' :: (r ++ ('\n' :: t)))))) = t := by
      rw [hrew]
      exact dropLine_append _ t hnotin
    rw [scanCaptures, hL, scanAux_succ_none m hm, hdl]
    exact (scanAux_congr m t.length t (by omega) (Nat.le_refl _))

/-- Witness for `relative_import_line_ignored` at a concrete input. -/
theorem relative_import_line_ignored_witness :
    scanCaptures ([] ++ (kwFrom ++ ([' '] ++ ('.' :: ("mod, x".toList ++
      ('\n' :: "x = 1\n".toList)))))) = scanCaptures "x = 1\n".toList :=
  relative_import_line_ignored [] [' '] "mod, x".toList "x = 1\n".toList
    (by decide) (by decide) (by decide) (by decide) (by decide) (by decide)

/-- C10: a multi-module line `import a, b, ...` contributes exactly its first
module name: the scan of a text starting with such a line is that first name
followed by the scan of the rest of the text, so the names after the comma
are never captured from this line and contribute nothing the resolver could
turn into packages. -/
theorem multi_import_first_only (w w1 a r t : List Char)
    (hw : ∀ c ∈ w, isWsChar c = true) (hw1 : ∀ c ∈ w1, isWsChar c = true)
    (hw1n : w1 ≠ []) (ha : ∀ c ∈ a, isIdChar c = true) (han : a ≠ [])
    (hr : '\n' ∉ r) :
    scanCaptures (w ++ (kwImport ++ (w1 ++ (a ++ (',' :: (r ++ ('\n' :: t))))))) =
      a :: scanCaptures t ∧
    ∀ n ∈ scanCaptures (w ++ (kwImport ++ (w1 ++ (a ++ (',' :: (r ++ ('\n' :: t))))))),
      n = a ∨ n ∈ scanCaptures t := by
  have hm := matchAt_line_import w w1 a (r ++ ('\n' :: t)) ',' hw hw1 hw1n ha han (by decide)
  have hlen : (w ++ (kwImport ++ (w1 ++ (a ++ (',' :: (r ++ ('\n' :: t))))))).length =
      w.length + (6 + (w1.length + (a.length + (1 + (r.length + (1 + t.length)))))) := by
    simp [kwImport]
    omega
  have hmain : scanCaptures (w ++ (kwImport ++ (w1 ++ (a ++ (',' :: (r ++ ('\n' :: t))))))) =
      a :: scanCaptures t := by
    cases hL : (w ++ (kwImport ++ (w1 ++ (a ++ (',' :: (r ++ ('\n' :: t))))))).length with
    | zero => omega
    | succ m =>
      have hrew : w ++ (kwImport ++ (w1 ++ (a ++ (',' :: (r ++ ('\n' :: t)))))) =
          (w ++ (kwImport ++ (w1 ++ a))) ++ (',' :: (r ++ ('\n' :: t))) := by
        simp [List.append_assoc]
      have hplen : w.length + 6 + w1.length + a.length =
          (w ++ (kwImport ++ (w1 ++ a))).length := by
        simp [kwImport]
        omega
      have hdrop : (w ++ (kwImport ++ (w1 ++ (a ++ (',' :: (r ++ ('\n' :: t))))))).drop
          (w.length + 6 + w1.length + a.length) = ',' :: (r ++ ('\n' :: t)) := by
        rw [hrew, hplen]
        exact List.drop_left _ _
      have hrew2 : (',' :: (r ++ ('\n' :: t))) = (',' :: r) ++ ('\n' :: t) := by
        simp
      have hnotin : '\n' ∉ ',' :: r := by
        intro hmem
        rcases List.mem_cons.mp hmem with h | h
        · exact absurd h (by decide)
        · exact hr h
      have hdl : dropLine (',' :: (r ++ ('\n' :: t))) = t := by
        rw [hrew2]
        exact dropLine_append _ t hnotin
      rw [scanCaptures, hL, scanAux_succ_some m hm, hdrop, hdl]
      rw [scanAux_congr m t.length t (by omega) (Nat.le_refl _)]
      rfl
  refine ⟨hmain, ?_⟩
  intro n hn
  rw [hmain] at hn
  exact List.mem_cons.mp hn

/-- Witness for `multi_import_first_only` at a concrete input. -/
theorem multi_import_first_only_witness :
    scanCaptures ([] ++ (kwImport ++ ([' '] ++ ("a".toList ++ (',' ::
      (" b, c".toList ++ ('\n' :: ("x = 1\n".toList)))))))) =
      "a".toList :: scanCaptures "x = 1\n".toList :=
  (multi_import_first_only [] [' '] "a".toList " b, c".toList "x = 1\n".toList
    (by decide) (by decide) (by decide) (by decide) (by decide) (by decide)).1
